import Mathlib

/-!
Verification of the chunk-replication engine ("Puller") of the repository,
shallowly embedded from `src/unnamed/part_001` (package `pull`).  Go hash
sets (`hash.HashSet`, maps with unspecified iteration order) are modelled as
duplicate-free lists of addresses; list order plays the role of the
unspecified iteration order.  The concurrent pipeline is sequentialized: the
goroutines of `Pull` communicate through channels in a producer/consumer
discipline whose observable effect on the properties below is the sequential
composition embedded here.
-/

namespace PullRepo

/-- Chunk addresses (`hash.Hash` in the source): opaque identifiers with
byte-wise equality, modelled as naturals. -/
abbrev Addr := Nat

/-- Model of `hash.HashSet`: a list of addresses kept duplicate-free by
`hsInsert`. -/
abbrev HashSet := List Addr

/-- Model of `HashSet.Insert`: a no-op when the address is already present. -/
def hsInsert (s : HashSet) (a : Addr) : HashSet :=
  if s.contains a then s else s ++ [a]

/-- Model of `HashSet.InsertAll`. -/
def hsInsertAll (s : HashSet) (t : HashSet) : HashSet :=
  t.foldl hsInsert s

/-- One iteration of the range loop in the large branch of
`limitToNewChunks` (src/unnamed/part_001 lines 596-607): addresses already
in `downloaded` are skipped; a new address is appended to the current batch
and inserted into `downloaded` (the source line reads `downlaoded.Insert(k)`,
a spelling slip for the `downloaded` parameter), and a fresh batch is started
after every `batchSize` kept addresses.  State: (finished batches, current
batch, totalAbsent, downloaded). -/
def limitStep (batchSize : Nat) (st : List HashSet × HashSet × Nat × HashSet)
    (k : Addr) : List HashSet × HashSet × Nat × HashSet :=
  match st with
  | (done, cur, total, dl) =>
    if dl.contains k then (done, cur, total, dl)
    else
      let cur' := cur ++ [k]
      let dl' := hsInsert dl k
      let total' := total + 1
      if total' % batchSize = 0 then (done ++ [cur'], [], total', dl')
      else (done, cur', total', dl')

/-- Model of `limitToNewChunks` (src/unnamed/part_001 lines 570-610).  The
Go function returns `(numAbsent, batches)` and mutates the `downloaded` map
in place (large branch only); the model returns the updated set as a third
component.  The small branch removes the already-downloaded addresses from
`absent` (the smaller/longer iteration trick computes the set difference
`absent minus downloaded` either way) and returns it as a single batch,
without touching `downloaded`. -/
def limitToNewChunks (absent downloaded : HashSet) (maxBatchSize : Nat) :
    Nat × List HashSet × HashSet :=
  let numAbsent := absent.length
  if numAbsent < maxBatchSize then
    let absent' := absent.filter fun k => !downloaded.contains k
    (absent'.length, [absent'], downloaded)
  else
    let numBatches := numAbsent / maxBatchSize + 1
    let batchSize := numAbsent / numBatches + 1
    let r := absent.foldl (limitStep batchSize) ([], [], 0, downloaded)
    (r.2.2.1, r.1 ++ [r.2.1], r.2.2.2)

/-- Arithmetic bound behind the batching: the batch size chosen by the large
branch never exceeds `maxBatchSize`. -/
theorem batchSize_le (n m : Nat) (hm : 1 ≤ m) : n / (n / m + 1) + 1 ≤ m := by
  have hq : n < (n / m + 1) * m := by
    have h1 := Nat.div_add_mod n m
    have h2 : n % m < m := Nat.mod_lt _ hm
    calc n = m * (n / m) + n % m := h1.symm
    _ < m * (n / m) + m := by omega
    _ = (n / m + 1) * m := by ring
  have : n / (n / m + 1) < m := by
    rw [Nat.div_lt_iff_lt_mul (Nat.succ_pos _)]
    calc n < (n / m + 1) * m := hq
    _ = m * (n / m + 1) := Nat.mul_comm _ _
  omega

/-- Invariant of the large-branch fold: all finished batches have length at
most `batchSize`, and the current batch has length `total % batchSize`. -/
theorem limitStep_fold_inv (bs : Nat) (hbs : 1 ≤ bs) (l : List Addr) :
    ∀ done cur total dl, (∀ b ∈ done, b.length ≤ bs) →
      cur.length = total % bs →
      (∀ b ∈ (l.foldl (limitStep bs) (done, cur, total, dl)).1, b.length ≤ bs) ∧
        (l.foldl (limitStep bs) (done, cur, total, dl)).2.1.length =
          (l.foldl (limitStep bs) (done, cur, total, dl)).2.2.1 %
            bs := by
  induction l with
  | nil => intro done cur total dl hdone hcur; exact ⟨hdone, hcur⟩
  | cons k rest ih =>
    intro done cur total dl hdone hcur
    simp only [List.foldl_cons]
    by_cases hk : dl.contains k
    · simp only [limitStep, hk, if_pos]
      exact ih done cur total dl hdone hcur
    · have hk' : k ∉ dl := by simpa using hk
      have htot : total % bs < bs := Nat.mod_lt _ hbs
      by_cases hcut : (total + 1) % bs = 0
      · have hmod : total % bs = bs - 1 := by
          rcases Nat.lt_or_ge (total % bs + 1) bs with h | h
          · exfalso
            have : (total + 1) % bs = total % bs + 1 := by
              conv_lhs => rw [← Nat.div_add_mod total bs]
              rw [Nat.add_assoc, Nat.mul_add_mod]
              exact Nat.mod_eq_of_lt h
            omega
          · omega
        have : limitStep bs (done, cur, total, dl) k =
            (done ++ [cur ++ [k]], [], total + 1, hsInsert dl k) := by
          simp [limitStep, hk', hcut]
        rw [this]
        refine ih _ _ _ _ ?_ ?_
        · intro b hb
          rcases List.mem_append.mp hb with h | h
          · exact hdone b h
          · have : b = cur ++ [k] := List.mem_singleton.mp h
            subst this
            simp only [List.length_append, List.length_singleton]
            omega
        · simpa using hcut.symm
      · have hmod : (total + 1) % bs = total % bs + 1 := by
          rcases Nat.lt_or_ge (total % bs + 1) bs with h | h
          · conv_lhs => rw [← Nat.div_add_mod total bs]
            rw [Nat.add_assoc, Nat.mul_add_mod]
            exact Nat.mod_eq_of_lt h
          · exfalso
            have heq : total % bs + 1 = bs := by omega
            have : (total + 1) % bs = 0 := by
              conv_lhs => rw [← Nat.div_add_mod total bs]
              rw [Nat.add_assoc, Nat.mul_add_mod, heq]
              exact Nat.mod_self bs
            exact hcut this
        have : limitStep bs (done, cur, total, dl) k =
            (done, cur ++ [k], total + 1, hsInsert dl k) := by
          simp [limitStep, hk', hcut]
        rw [this]
        refine ih _ _ _ _ hdone ?_
        simp only [List.length_append, List.length_singleton, hcur, hmod]

/-- Every batch produced by `limitToNewChunks` has size at most
`maxBatchSize` (the driver calls it with `64*1024`). -/
theorem limitToNewChunks_batch_le (absent downloaded : HashSet)
    (m : Nat) (hm : 1 ≤ m) :
    ∀ b ∈ (limitToNewChunks absent downloaded m).2.1, b.length ≤ m := by
  intro b hb
  unfold limitToNewChunks at hb
  by_cases hsmall : absent.length < m
  · simp only [hsmall, if_pos, List.mem_singleton] at hb
    subst hb
    exact Nat.le_of_lt (Nat.lt_of_le_of_lt (List.length_filter_le _ _) hsmall)
  · simp only [hsmall, if_neg, not_false_iff] at hb
    set bs := absent.length / (absent.length / m + 1) + 1 with hbsdef
    have hbs1 : 1 ≤ bs := Nat.le_add_left 1 _
    have hbsm : bs ≤ m := batchSize_le absent.length m hm
    have hinv := limitStep_fold_inv bs hbs1 absent [] [] 0 downloaded
      (by intro b hb; simp at hb) (by simp)
    rcases List.mem_append.mp hb with h | h
    · exact Nat.le_trans (hinv.1 b h) hbsm
    · have hbcur : b = (absent.foldl (limitStep bs) ([], [], 0, downloaded)).2.1 :=
        List.mem_singleton.mp h
      have hlt : b.length < bs := by
        rw [hbcur, hinv.2]; exact Nat.mod_lt _ hbs1
      omega

/-- Environment a pull runs against: `src a = some refs` when the source
store holds a chunk at address `a` whose walker (`p.waf`) emits the outbound
references `refs`; `sinkHas` is the sink store's membership before the pull
(table files written during the pull become visible only at the manifest
commit, so `HasMany` against the sink is stable for its whole duration);
`chunksPerTF` is the writer-rotation threshold passed to `NewPuller`. -/
structure PullEnv where
  src : Addr → Option HashSet
  sinkHas : Addr → Bool
  chunksPerTF : Nat

/-- Sink `HasMany`: the subset of the queried addresses absent from the
sink (set difference against the sink contents). -/
def sinkHasMany (env : PullEnv) (s : HashSet) : HashSet :=
  s.filter fun a => !env.sinkHas a

/-- Chunks that `GetManyCompressed` streams back for a batch: one per
requested address the source holds, in batch order (the model's stand-in for
the unspecified concurrent delivery order). -/
def srcEmits (env : PullEnv) (batch : HashSet) : List Addr :=
  batch.filter fun a => (env.src a).isSome

/-- Observable state of the sequentialized `Pull` driver.  `fetched` is the
stream of chunk deliveries from the source, `fetchBatches` the argument of
every `GetManyCompressed` call, `wrCount` the chunk count of the in-progress
table-file writer `p.wr`, and `handedOff` the chunk counts of the writers
sent on the `completedTables` channel by the rotation in `getCmp`. -/
structure DriverState where
  absent : HashSet
  downloaded : HashSet
  fetched : List Addr
  fetchBatches : List HashSet
  wrCount : Nat
  handedOff : List Nat
  deriving Repr, DecidableEq

/-- Pack-stage step of `getCmp` (src/unnamed/part_001 lines 672-707): append
the delivered chunk to the current writer; when the writer's chunk count
reaches `chunksPerTF`, send it on `completedTables` and open a fresh writer;
then insert the chunk's outbound references into `nextLevel`. -/
def packChunk (env : PullEnv) (st : DriverState × HashSet) (a : Addr) :
    DriverState × HashSet :=
  match st with
  | (s, nextLevel) =>
    let cnt := s.wrCount + 1
    let s' :=
      if env.chunksPerTF ≤ cnt then
        { s with wrCount := 0, handedOff := s.handedOff ++ [cnt] }
      else
        { s with wrCount := cnt }
    (s', hsInsertAll nextLevel ((env.src a).getD []))

/-- Body of `getCmp` (src/unnamed/part_001 lines 612-720) for an explicit
delivered-chunk stream: record the `GetManyCompressed` call, run every
delivered chunk through the pack stage, and report the completeness error
when the number of chunks seen differs from the batch size (the check
`seen != len(batch)` at lines 713-715).  Its first result components carry
the state and next-level set after the deliveries that did arrive. -/
def getCmpDelivered (env : PullEnv) (batch : HashSet) (delivered : List Addr)
    (nextLevel : HashSet) (s : DriverState) :
    DriverState × HashSet × Option String :=
  let s0 := { s with fetched := s.fetched ++ delivered,
                     fetchBatches := s.fetchBatches ++ [batch] }
  let r := delivered.foldl (packChunk env) (s0, nextLevel)
  (r.1, r.2,
    if delivered.length ≠ batch.length then some "failed to get all chunks."
    else none)

/-- The `getCmp` call as the driver makes it: the source delivers exactly
the chunks it holds among the requested batch. -/
def getCmp (env : PullEnv) (batch nextLevel : HashSet) (s : DriverState) :
    DriverState × HashSet × Option String :=
  getCmpDelivered env batch (srcEmits env batch) nextLevel s

/-- Result of the batch loop inside one level of `Pull`. -/
inductive InnerOut where
  | fuelOut (nextLevel : HashSet) (s : DriverState)
  | failed (e : String) (nextLevel : HashSet) (s : DriverState)
  | done (nextLevel : HashSet) (s : DriverState)
  deriving Repr, DecidableEq

/-- The `for i` batch loop of `Pull` (src/unnamed/part_001 lines 532-551),
fuel-based because the body can reset `i` to the start: narrow batch `i` to
the addresses absent from the sink (the assignment at line 534 persists in
the slice), fetch it when non-empty, and — when `nextAbsent` has grown to
64 Ki — rerun `limitToNewChunks` on it (of whose results only the in-place
update of `p.downloaded` survives: `newNumAbsent` and `newBatches` are dead),
restart the loop at `i = -1` and clear `nextAbsent` (lines 544-549). -/
def innerLoop (env : PullEnv) :
    Nat → List HashSet → Nat → HashSet → DriverState → InnerOut
  | 0, _, _, nextLevel => fun s => .fuelOut nextLevel s
  | fuel + 1, batches, i, nextLevel => fun s =>
    if i < batches.length then
      let b := sinkHasMany env (batches.getD i [])
      let batches' := batches.set i b
      if 0 < b.length then
        let r := getCmp env b nextLevel s
        match r.2.2 with
        | some e => .failed e r.2.1 r.1
        | none =>
          if 64 * 1024 ≤ r.2.1.length then
            let dl' := (limitToNewChunks r.2.1 r.1.downloaded (64 * 1024)).2.2
            innerLoop env fuel batches' 0 [] { r.1 with downloaded := dl' }
          else
            innerLoop env fuel batches' (i + 1) r.2.1 r.1
      else
        innerLoop env fuel batches' (i + 1) nextLevel s
    else .done nextLevel s

/-- Result of the whole fetch loop of `Pull`: it runs out of fuel (the loop
did not terminate within the given bound), fails, or finishes, in which case
`flush` is the chunk count of the final writer if `Pull` sends it on
`completedTables` (it does so only when the count is positive). -/
inductive PullOut where
  | fuelOut (s : DriverState)
  | failed (e : String) (s : DriverState)
  | finished (s : DriverState) (flush : Option Nat)
  deriving Repr, DecidableEq

/-- State reached by the driver, in every outcome. -/
def PullOut.state : PullOut → DriverState
  | .fuelOut s => s
  | .failed _ s => s
  | .finished s _ => s

/-- Whether the fuel ran out before the fetch loop terminated. -/
def PullOut.isFuelOut : PullOut → Bool
  | .fuelOut _ => true
  | _ => false

/-- The final-writer flush of `Pull` (src/unnamed/part_001 lines 556-562). -/
def PullOut.flush : PullOut → Option Nat
  | .finished _ f => f
  | _ => none

/-- The `for numAbsent > 0` level loop of `Pull` (src/unnamed/part_001 lines
520-565): split `absent` against `downloaded` into batches of at most 64 Ki,
run the batch loop, then continue with `absent = nextAbsent`; on exit, flush
the in-progress writer when it holds at least one chunk. -/
def pullLoop (env : PullEnv) :
    Nat → Nat → Nat → DriverState → PullOut
  | 0, _, _, s => .fuelOut s
  | fuelO + 1, fuelI, numAbsent, s =>
    if numAbsent = 0 then
      .finished s (if 0 < s.wrCount then some s.wrCount else none)
    else
      let r := limitToNewChunks s.absent s.downloaded (64 * 1024)
      match innerLoop env fuelI r.2.1 0 [] { s with downloaded := r.2.2 } with
      | .fuelOut _ s' => .fuelOut s'
      | .failed e _ s' => .failed e s'
      | .done nextLevel s' =>
        pullLoop env fuelO fuelI r.1 { s' with absent := nextLevel }

/-- Driver state at the start of `Pull`: `absent` is a copy of the root
hashes, `p.downloaded` is empty, the writer created by `NewPuller` is
empty. -/
def initState (roots : HashSet) : DriverState :=
  { absent := roots, downloaded := [], fetched := [], fetchBatches := [],
    wrCount := 0, handedOff := [] }

/-- The fetch side of `Pull` (src/unnamed/part_001 lines 503-568),
sequentialized, with fuel bounds on both loops. -/
def pull (env : PullEnv) (fuelO fuelI : Nat) (roots : HashSet) : PullOut :=
  pullLoop env fuelO fuelI roots.length (initState roots)

/-- State reached by the batch loop, in every outcome. -/
def InnerOut.state : InnerOut → DriverState
  | .fuelOut _ s => s
  | .failed _ _ s => s
  | .done _ s => s

/-- The pack stage never changes the recorded `GetManyCompressed` calls. -/
theorem packChunk_foldl_fetchBatches (env : PullEnv) (l : List Addr) :
    ∀ st : DriverState × HashSet,
      (l.foldl (packChunk env) st).1.fetchBatches = st.1.fetchBatches := by
  induction l with
  | nil => intro st; rfl
  | cons a rest ih =>
    intro st
    rw [List.foldl_cons, ih]
    rcases st with ⟨s, nl⟩
    simp only [packChunk]
    split <;> rfl

/-- The pack stage hands a writer off only under the rotation guard, so all
chunk counts it records on `completedTables` stay at least `chunksPerTF`. -/
theorem packChunk_foldl_handedOff (env : PullEnv) (l : List Addr) :
    ∀ st : DriverState × HashSet,
      (∀ c ∈ st.1.handedOff, env.chunksPerTF ≤ c) →
      ∀ c ∈ (l.foldl (packChunk env) st).1.handedOff, env.chunksPerTF ≤ c := by
  induction l with
  | nil => intro st h; exact h
  | cons a rest ih =>
    intro st h
    rw [List.foldl_cons]
    refine ih _ ?_
    rcases st with ⟨s, nl⟩
    simp only [packChunk]
    split
    · rename_i hrot
      intro c hc
      rcases List.mem_append.mp hc with hc | hc
      · exact h c hc
      · rw [List.mem_singleton.mp hc]; exact hrot
    · exact h

/-- `getCmp` records exactly one more `GetManyCompressed` call, with the
batch it was given. -/
theorem getCmpDelivered_fetchBatches (env : PullEnv) (batch : HashSet)
    (delivered : List Addr) (nextLevel : HashSet) (s : DriverState) :
    (getCmpDelivered env batch delivered nextLevel s).1.fetchBatches =
      s.fetchBatches ++ [batch] := by
  unfold getCmpDelivered
  rw [packChunk_foldl_fetchBatches]

/-- `getCmp` preserves the rotation bound on handed-off writers. -/
theorem getCmpDelivered_handedOff (env : PullEnv) (batch : HashSet)
    (delivered : List Addr) (nextLevel : HashSet) (s : DriverState)
    (h : ∀ c ∈ s.handedOff, env.chunksPerTF ≤ c) :
    ∀ c ∈ (getCmpDelivered env batch delivered nextLevel s).1.handedOff,
      env.chunksPerTF ≤ c := by
  unfold getCmpDelivered
  exact packChunk_foldl_handedOff env delivered _ h

/-- Combined invariant of the batch loop: if all pending batches are within
the 64 Ki bound, every `GetManyCompressed` call recorded so far is within
the bound, and every handed-off writer met the rotation threshold, the same
holds in the state the loop reaches. -/
theorem innerLoop_inv (env : PullEnv) (fuel : Nat) :
    ∀ (batches : List HashSet) (i : Nat) (nextLevel : HashSet)
      (s : DriverState),
      (∀ b ∈ batches, b.length ≤ 64 * 1024) →
      (∀ b ∈ s.fetchBatches, b.length ≤ 64 * 1024) →
      (∀ c ∈ s.handedOff, env.chunksPerTF ≤ c) →
      (∀ b ∈ (innerLoop env fuel batches i nextLevel s).state.fetchBatches,
          b.length ≤ 64 * 1024) ∧
        (∀ c ∈ (innerLoop env fuel batches i nextLevel s).state.handedOff,
          env.chunksPerTF ≤ c) := by
  induction fuel with
  | zero => intro batches i nextLevel s _ h2 h3; exact ⟨h2, h3⟩
  | succ fuel ih =>
    intro batches i nextLevel s h1 h2 h3
    rw [innerLoop]
    by_cases hi : i < batches.length
    · simp only [hi, if_pos]
      have hb : (sinkHasMany env (batches.getD i [])).length ≤ 64 * 1024 := by
        refine Nat.le_trans (List.length_filter_le _ _) ?_
        rw [List.getD_eq_getElem batches [] hi]
        exact h1 _ (List.getElem_mem hi)
      have hset : ∀ b ∈ batches.set i (sinkHasMany env (batches.getD i [])),
          b.length ≤ 64 * 1024 := by
        intro b hbm
        rcases List.mem_or_eq_of_mem_set hbm with h | h
        · exact h1 b h
        · rw [h]; exact hb
      by_cases hpos : 0 < (sinkHasMany env (batches.getD i [])).length
      · simp only [hpos, if_pos]
        have hfb : ∀ b ∈ (getCmp env (sinkHasMany env (batches.getD i []))
            nextLevel s).1.fetchBatches, b.length ≤ 64 * 1024 := by
          rw [getCmp, getCmpDelivered_fetchBatches]
          intro b hbm
          rcases List.mem_append.mp hbm with h | h
          · exact h2 b h
          · rw [List.mem_singleton.mp h]; exact hb
        have hho : ∀ c ∈ (getCmp env (sinkHasMany env (batches.getD i []))
            nextLevel s).1.handedOff, env.chunksPerTF ≤ c :=
          getCmpDelivered_handedOff env _ _ _ _ h3
        split
        · exact ⟨hfb, hho⟩
        · by_cases hbig : 64 * 1024 ≤ (getCmp env (sinkHasMany env
              (batches.getD i [])) nextLevel s).2.1.length
          · simp only [hbig, if_pos]
            exact ih _ _ _ _ hset hfb hho
          · simp only [hbig, if_neg, not_false_iff]
            exact ih _ _ _ _ hset hfb hho
      · simp only [hpos, if_neg, not_false_iff]
        exact ih _ _ _ _ hset h2 h3
    · simp only [hi, if_neg, not_false_iff]
      exact ⟨h2, h3⟩

/-- Combined invariant of the level loop, plus: the final flush of `Pull`
carries a positive chunk count when it happens at all. -/
theorem pullLoop_inv (env : PullEnv) (fuelO : Nat) :
    ∀ (fuelI numAbsent : Nat) (s : DriverState),
      (∀ b ∈ s.fetchBatches, b.length ≤ 64 * 1024) →
      (∀ c ∈ s.handedOff, env.chunksPerTF ≤ c) →
      (∀ b ∈ (pullLoop env fuelO fuelI numAbsent s).state.fetchBatches,
          b.length ≤ 64 * 1024) ∧
        (∀ c ∈ (pullLoop env fuelO fuelI numAbsent s).state.handedOff,
          env.chunksPerTF ≤ c) ∧
        (∀ k, (pullLoop env fuelO fuelI numAbsent s).flush = some k → 0 < k) := by
  induction fuelO with
  | zero =>
    intro fuelI numAbsent s h2 h3
    exact ⟨h2, h3, by intro k hk; cases hk⟩
  | succ fuelO ih =>
    intro fuelI numAbsent s h2 h3
    rw [pullLoop]
    by_cases hn : numAbsent = 0
    · simp only [hn, if_pos]
      refine ⟨h2, h3, ?_⟩
      intro k hk
      simp only [PullOut.flush] at hk
      rcases Nat.eq_zero_or_pos s.wrCount with hw | hw
      · rw [hw] at hk; simp at hk
      · rw [if_pos hw] at hk
        cases hk
        exact hw
    · simp only [hn, if_neg, not_false_iff]
      have hbatches := limitToNewChunks_batch_le s.absent s.downloaded
        (64 * 1024) (by omega)
      have hinner := innerLoop_inv env fuelI
        (limitToNewChunks s.absent s.downloaded (64 * 1024)).2.1 0 []
        { s with downloaded := (limitToNewChunks s.absent s.downloaded
            (64 * 1024)).2.2 }
        hbatches h2 h3
      cases hres : innerLoop env fuelI
          (limitToNewChunks s.absent s.downloaded (64 * 1024)).2.1 0 []
          { s with downloaded := (limitToNewChunks s.absent s.downloaded
              (64 * 1024)).2.2 } with
      | fuelOut nl s' =>
        rw [hres] at hinner
        refine ⟨hinner.1, hinner.2, ?_⟩
        intro k hk
        simp [PullOut.flush] at hk
      | failed e nl s' =>
        rw [hres] at hinner
        refine ⟨hinner.1, hinner.2, ?_⟩
        intro k hk
        simp [PullOut.flush] at hk
      | done nl s' =>
        rw [hres] at hinner
        exact ih _ _ _ hinner.1 hinner.2

/-- The scenario of spec §8 end-to-end case 5: a source holding a single
chunk `A` (address `0`) whose only outbound reference is `A` itself, an
empty sink, and any rotation threshold (here the spec's typical 256 Ki). -/
def selfCycleEnv : PullEnv :=
  { src := fun a => if a = 0 then some [0] else none,
    sinkHas := fun _ => false,
    chunksPerTF := 256 * 1024 }

/-- One level of the self-cycle pull: the batch `{A}` is fetched and `A` is
queued again, with `absent` and `downloaded` unchanged — `downloaded` is
updated nowhere on this path (the only inserts into `p.downloaded` sit in
the large branch of `limitToNewChunks`, unreachable below 64 Ki). -/
theorem selfCycle_innerLoop (s : DriverState) :
    ∃ s1, innerLoop selfCycleEnv 4 [[0]] 0 [] s = .done [0] s1 ∧
      s1.absent = s.absent ∧ s1.downloaded = s.downloaded ∧
      s1.fetched = s.fetched ++ [0] := by
  refine ⟨(packChunk selfCycleEnv
    ({ s with fetched := s.fetched ++ [0],
              fetchBatches := s.fetchBatches ++ [[0]] }, [])
      0).1, ?_, ?_, ?_, ?_⟩
  · rfl
  · simp only [packChunk]; split <;> rfl
  · simp only [packChunk]; split <;> rfl
  · simp only [packChunk]; split <;> rfl

/-- Iterating levels of the self-cycle pull: no amount of fuel finishes the
loop, and each level fetches `A` once more. -/
theorem selfCycle_pullLoop (n : Nat) :
    ∀ s : DriverState, s.absent = [0] → s.downloaded = [] →
      ∃ s', pullLoop selfCycleEnv n 4 1 s = .fuelOut s' ∧
        s'.fetched = s.fetched ++ List.replicate n 0 := by
  induction n with
  | zero => intro s _ _; exact ⟨s, rfl, by simp⟩
  | succ n ih =>
    intro s h1 h2
    have hlimit : limitToNewChunks s.absent s.downloaded (64 * 1024) =
        (1, [[0]], []) := by rw [h1, h2]; rfl
    obtain ⟨s1, hinner, ha, hd, hf⟩ :=
      selfCycle_innerLoop { s with downloaded := ([] : HashSet) }
    obtain ⟨s', hloop, hf'⟩ := ih { s1 with absent := [0] } rfl (by simpa using hd)
    refine ⟨s', ?_, ?_⟩
    · show pullLoop selfCycleEnv (n + 1) 4 1 s = .fuelOut s'
      unfold pullLoop
      simp only [hlimit, hinner, reduceIte]
      exact hloop
    · rw [hf']
      simp only [hf]
      simp [List.replicate_succ]

/-- Claim C2 fails on the code: for the accidental self-cycle `A → {A}`
with roots `{A}` and a sink lacking `A`, the fetch loop of `Pull` never
terminates — whatever fuel `n` the model grants, the loop is still running
and has fetched `A` exactly `n` times (once per BFS level), because nothing
on the sub-64 Ki path ever inserts fetched addresses into `p.downloaded`
and the sink does not contain `A` before the manifest commit. -/
theorem pull_self_cycle_diverges :
    ∀ n : Nat, (pull selfCycleEnv n 4 [0]).isFuelOut = true ∧
      (pull selfCycleEnv n 4 [0]).state.fetched = List.replicate n 0 := by
  intro n
  obtain ⟨s', hs', hf⟩ := selfCycle_pullLoop n (initState [0]) rfl rfl
  have hpull : pull selfCycleEnv n 4 [0] = .fuelOut s' := hs'
  rw [hpull]
  exact ⟨rfl, by simpa using hf⟩

/-- A one-chunk scenario used as a concrete witness: the source holds a
single leaf chunk at address `0`, the sink is empty, rotation threshold 10. -/
def leafEnv : PullEnv :=
  { src := fun a => if a = 0 then some [] else none,
    sinkHas := fun _ => false,
    chunksPerTF := 10 }

/-- A rotation witness scenario: threshold 1, so the single fetched chunk
immediately rotates the writer onto `completedTables`. -/
def rotEnv : PullEnv :=
  { src := fun a => if a = 0 then some [] else none,
    sinkHas := fun _ => false,
    chunksPerTF := 1 }

/-- Claim C6: every `GetManyCompressed` call the driver makes — whatever the
source contents, sink contents, rotation threshold, roots, and however many
loop iterations run — carries an address batch of at most 64 Ki = 65536
addresses: the driver splits each level through `limitToNewChunks` with
`maxBatchSize = 64*1024`, and batches only shrink afterwards (the sink
`HasMany` narrowing at line 534 filters them). -/
theorem pull_fetch_batches_bounded (env : PullEnv) (fuelO fuelI : Nat)
    (roots : HashSet) :
    ∀ b ∈ (pull env fuelO fuelI roots).state.fetchBatches,
      b.length ≤ 64 * 1024 :=
  (pullLoop_inv env fuelO fuelI roots.length (initState roots)
    (by intro b hb; cases hb) (by intro c hc; cases hc)).1

/-- Witness for C6 at a concrete pull: the one batch the leaf scenario
fetches is `[0]`, of size 1 ≤ 64 Ki. -/
theorem pull_fetch_batches_bounded_wit :
    ([0] : HashSet).length ≤ 64 * 1024 :=
  pull_fetch_batches_bounded leafEnv 3 4 [0] [0] (by decide)

/-- Claim C7: every writer handed to the `completedTables` channel by the
rotation in `getCmp` has chunk count at least `chunksPerTF` at the moment of
the hand-off, and the only other hand-off — the final flush after the absent
set drains — happens only when the final writer is non-empty. -/
theorem pull_writer_rotation (env : PullEnv) (fuelO fuelI : Nat)
    (roots : HashSet) :
    (∀ c ∈ (pull env fuelO fuelI roots).state.handedOff,
        env.chunksPerTF ≤ c) ∧
      (∀ k, (pull env fuelO fuelI roots).flush = some k → 0 < k) :=
  ⟨(pullLoop_inv env fuelO fuelI roots.length (initState roots)
      (by intro b hb; cases hb) (by intro c hc; cases hc)).2.1,
    (pullLoop_inv env fuelO fuelI roots.length (initState roots)
      (by intro b hb; cases hb) (by intro c hc; cases hc)).2.2⟩

/-- Witness for C7: in the rotation scenario the writer handed off carries
exactly 1 chunk (threshold 1), and in the leaf scenario the final flush
carries the positive count 1. -/
theorem pull_writer_rotation_wit : rotEnv.chunksPerTF ≤ 1 ∧ (0 : Nat) < 1 :=
  ⟨(pull_writer_rotation rotEnv 3 4 [0]).1 1 (by decide),
    (pull_writer_rotation leafEnv 3 4 [0]).2 1 (by decide)⟩

/-- Claim C4 is refuted at this input: for the batch `[0]` the source
invokes the `GetManyCompressed` callback twice, so two chunks arrive at the
pack stage; 2 is not smaller than the 1 address requested, yet the batch
fails with the incomplete-fetch error, because the check at
src/unnamed/part_001 line 713 is `seen != len(batch)`, not
`seen < len(batch)`. -/
theorem getCmp_overdelivery_cex :
    (getCmpDelivered leafEnv [0] [0, 0] [] (initState [0])).2.2 =
        some "failed to get all chunks." ∧
      ¬ (([0, 0] : List Addr).length < ([0] : HashSet).length) :=
  ⟨rfl, by decide⟩

/-- Claim C4 amended: a batch fails the completeness check exactly when the
number of chunks arriving at the pack stage differs from the number of
addresses requested.  A short batch fails as the claim states; a batch is
passed by the check only when the counts are equal, so an over-delivering
source also fails it. -/
theorem getCmp_completeness_check (env : PullEnv) (batch : HashSet)
    (delivered : List Addr) (nextLevel : HashSet) (s : DriverState) :
    (getCmpDelivered env batch delivered nextLevel s).2.2 =
        some "failed to get all chunks." ↔
      delivered.length ≠ batch.length := by
  unfold getCmpDelivered
  by_cases h : delivered.length = batch.length
  · simp [h]
  · simp [h]

/-- A writer arriving on the `completedTables` channel (`FilledWriters`),
described by the observables the consumer uses: `fileId` is the table-file
id `wr.Finish()` returns (the content hash), `numChunks` its `ChunkCount()`,
`tmpName` the identity of the temp file backing the writer in `tempDir`,
and `finishOk` whether `wr.Finish()` succeeds. -/
structure TableFile where
  fileId : Nat
  numChunks : Nat
  tmpName : Nat
  finishOk : Bool
  deriving Repr, DecidableEq

/-- Calls `processCompletedTables` makes on the sink's `TableFileStore`
interface. -/
inductive SinkCall where
  | writeTableFile (id : Nat) (numChunks : Nat)
  | addTableFilesToManifest (entries : List (Nat × Nat))
  deriving Repr, DecidableEq

/-- Assignment into the Go map `fileIdToNumChunks`. -/
def mapPut (m : List (Nat × Nat)) (k v : Nat) : List (Nat × Nat) :=
  if m.any fun p => p.1 = k then
    m.map fun p => if p.1 = k then (k, v) else p
  else m ++ [(k, v)]

/-- Model of `processCompletedTables` (src/unnamed/part_001 lines 459-500)
together with the file-removal behaviour of `uploadTempTableFile` (lines
427-457, whose deferred `tmpTblFile.read.Remove()` deletes the temp file on
upload success and upload failure alike).  Inputs: the per-file upload
outcome `uploadOk` and the writers received from the channel, in order.
Results: the sink calls made, the error returned (`none` on success), and
the temp files of this pull still on disk afterwards.  A writer whose
`Finish` fails aborts before `uploadTempTableFile` runs, so its temp file
and those of the writers still queued are never removed. -/
def processCompletedTablesGo (uploadOk : Nat → Bool) :
    List TableFile → List (Nat × Nat) → List SinkCall →
      List SinkCall × Option String × List Nat
  | [], acc, calls =>
    (calls ++ [.addTableFilesToManifest acc], none, [])
  | t :: rest, acc, calls =>
    if t.finishOk then
      if uploadOk t.fileId then
        processCompletedTablesGo uploadOk rest (mapPut acc t.fileId t.numChunks)
          (calls ++ [.writeTableFile t.fileId t.numChunks])
      else
        (calls ++ [.writeTableFile t.fileId t.numChunks],
          some "failed to write table file", rest.map fun t => t.tmpName)
    else
      (calls, some "failed to finish table file",
        (t :: rest).map fun t => t.tmpName)

/-- Entry point of the model: empty accumulator and call trace. -/
def processCompletedTables (uploadOk : Nat → Bool) (tables : List TableFile) :
    List SinkCall × Option String × List Nat :=
  processCompletedTablesGo uploadOk tables [] []

/-- The accumulated `fileIdToNumChunks` map for a writer sequence. -/
def accumulatedMap (tables : List TableFile) : List (Nat × Nat) :=
  tables.foldl (fun acc t => mapPut acc t.fileId t.numChunks) []

/-- Generalized trace shape of `processCompletedTables`: if the manifest
call appears in the produced trace, the loop consumed every writer, each one
finalized and uploaded successfully, the trace is the uploads in order
followed by the single manifest call, and the committed map is the
accumulated one. -/
theorem processGo_manifest (uploadOk : Nat → Bool) (tables : List TableFile) :
    ∀ (acc : List (Nat × Nat)) (calls0 : List SinkCall),
      (∀ m', SinkCall.addTableFilesToManifest m' ∉ calls0) →
      ∀ m, SinkCall.addTableFilesToManifest m ∈
          (processCompletedTablesGo uploadOk tables acc calls0).1 →
        (processCompletedTablesGo uploadOk tables acc calls0).1 =
            calls0 ++
              (tables.map fun t => SinkCall.writeTableFile t.fileId t.numChunks)
              ++ [SinkCall.addTableFilesToManifest m] ∧
          m = tables.foldl (fun a t => mapPut a t.fileId t.numChunks) acc ∧
          (∀ t ∈ tables, t.finishOk = true ∧ uploadOk t.fileId = true) ∧
          (processCompletedTablesGo uploadOk tables acc calls0).2.1 = none := by
  induction tables with
  | nil =>
    intro acc calls0 h0 m hm
    simp only [processCompletedTablesGo] at hm ⊢
    rcases List.mem_append.mp hm with h | h
    · exact absurd h (h0 m)
    · have heq : SinkCall.addTableFilesToManifest m =
          SinkCall.addTableFilesToManifest acc := List.mem_singleton.mp h
      have hma : m = acc := by injection heq
      subst hma
      simp
  | cons t rest ih =>
    intro acc calls0 h0 m hm
    by_cases hfin : t.finishOk
    · by_cases hup : uploadOk t.fileId
      · simp only [processCompletedTablesGo, hfin, hup, if_pos] at hm ⊢
        have h0' : ∀ m', SinkCall.addTableFilesToManifest m' ∉
            calls0 ++ [SinkCall.writeTableFile t.fileId t.numChunks] := by
          intro m' hmem
          rcases List.mem_append.mp hmem with h | h
          · exact h0 m' h
          · cases List.mem_singleton.mp h
        obtain ⟨hcalls, hacc, hall, herr⟩ := ih _ _ h0' m hm
        refine ⟨?_, ?_, ?_, herr⟩
        · rw [hcalls]; simp
        · simpa using hacc
        · intro x hx
          rcases List.mem_cons.mp hx with h | h
          · rw [h]; exact ⟨hfin, hup⟩
          · exact hall x h
      · exfalso
        simp only [processCompletedTablesGo, hfin, hup, if_pos,
          Bool.false_eq_true, if_neg, not_false_iff] at hm
        rcases List.mem_append.mp hm with h | h
        · exact h0 m h
        · cases List.mem_singleton.mp h
    · exfalso
      simp only [processCompletedTablesGo, hfin, Bool.false_eq_true, if_neg,
        not_false_iff] at hm
      exact h0 m hm

/-- Claim C1: whenever `processCompletedTables` calls the sink's
`AddTableFilesToManifest` at all, that call is single and last — strictly
after a successful `WriteTableFile` for every table file handed to the
upload stage — and carries the accumulated id-to-chunk-count map; any
finalize or upload failure returns before the manifest commit is reached. -/
theorem processCompletedTables_atomic_publish (uploadOk : Nat → Bool)
    (tables : List TableFile) (m : List (Nat × Nat))
    (hm : SinkCall.addTableFilesToManifest m ∈
      (processCompletedTables uploadOk tables).1) :
    (processCompletedTables uploadOk tables).1 =
        (tables.map fun t => SinkCall.writeTableFile t.fileId t.numChunks)
          ++ [SinkCall.addTableFilesToManifest m] ∧
      m = accumulatedMap tables ∧
      (∀ t ∈ tables, t.finishOk = true ∧ uploadOk t.fileId = true) ∧
      (processCompletedTables uploadOk tables).2.1 = none := by
  have h := processGo_manifest uploadOk tables [] []
    (by intro m' hm'; cases hm') m hm
  simpa [processCompletedTables, accumulatedMap] using h

/-- Witness for C1 at a concrete run: one writer, id 1 with 2 chunks, which
finalizes and uploads; the trace is its upload followed by the manifest
commit of `[(1, 2)]`. -/
theorem processCompletedTables_atomic_publish_wit :
    (processCompletedTables (fun _ => true) [⟨1, 2, 7, true⟩]).1 =
        [SinkCall.writeTableFile 1 2,
          SinkCall.addTableFilesToManifest [(1, 2)]] ∧
      ([(1, 2)] : List (Nat × Nat)) = accumulatedMap [⟨1, 2, 7, true⟩] ∧
      (∀ t ∈ ([⟨1, 2, 7, true⟩] : List TableFile),
        t.finishOk = true ∧ (fun _ => true) t.fileId = true) ∧
      (processCompletedTables (fun _ => true) [⟨1, 2, 7, true⟩]).2.1 = none :=
  processCompletedTables_atomic_publish (fun _ => true) [⟨1, 2, 7, true⟩]
    [(1, 2)] (by decide)

/-- Claim C5 is refuted at this input: one writer whose `Finish` call fails.
`processCompletedTables` returns the error before `uploadTempTableFile` —
whose deferred `Remove` is the only temp-file deletion anywhere in the pull
— ever runs, so the writer's temp file (named 7 here) is still in `tempDir`
after the pull ends in an error, contradicting cleanup on every path. -/
theorem cleanup_cex :
    (processCompletedTables (fun _ => true) [⟨1, 2, 7, false⟩]).2.2 = [7] ∧
      (processCompletedTables (fun _ => true) [⟨1, 2, 7, false⟩]).2.1 ≠
        none ∧
      ([7] : List Nat) ≠ [] := by decide

/-- Success path of the generalized loop: when every writer finalizes and
uploads, every temp file is removed. -/
theorem processGo_success_clean (uploadOk : Nat → Bool)
    (tables : List TableFile) :
    ∀ acc calls0, (∀ t ∈ tables, t.finishOk = true ∧ uploadOk t.fileId = true) →
      (processCompletedTablesGo uploadOk tables acc calls0).2.2 = [] := by
  induction tables with
  | nil => intro acc calls0 _; rfl
  | cons t rest ih =>
    intro acc calls0 hall
    have ht := hall t (List.mem_cons_self t rest)
    simp only [processCompletedTablesGo, ht.1, ht.2, if_pos]
    exact ih _ _ fun x hx => hall x (List.mem_cons_of_mem t hx)

/-- Upload-failure path of the generalized loop: the writer whose upload
fails is removed by the deferred `Remove`; only the writers still queued
behind it keep their temp files. -/
theorem processGo_upload_fail (uploadOk : Nat → Bool) (t : TableFile)
    (post : List TableFile) (hfin : t.finishOk = true)
    (hup : uploadOk t.fileId = false) :
    ∀ (pre : List TableFile) acc calls0,
      (∀ x ∈ pre, x.finishOk = true ∧ uploadOk x.fileId = true) →
      (processCompletedTablesGo uploadOk (pre ++ t :: post) acc calls0).2.2 =
        post.map fun x => x.tmpName := by
  intro pre
  induction pre with
  | nil =>
    intro acc calls0 _
    simp only [List.nil_append, processCompletedTablesGo, hfin, hup,
      Bool.false_eq_true, if_pos, if_neg, not_false_iff]
  | cons x rest ih =>
    intro acc calls0 hall
    have hx := hall x (List.mem_cons_self x rest)
    simp only [List.cons_append, processCompletedTablesGo, hx.1, hx.2, if_pos]
    exact ih _ _ fun y hy => hall y (List.mem_cons_of_mem x hy)

/-- Claim C5 amended: temp files are guaranteed removed only on paths that
reach `uploadTempTableFile`: after a pull in which every handed-off writer
finalizes and uploads successfully no temp file of this pull remains, and a
writer whose `WriteTableFile` fails is still removed by the deferred
`Remove` (only the writers queued behind the failure keep their files);
a writer whose `Finish` fails, and everything queued after it, is not
removed. -/
theorem cleanup_on_upload_path (uploadOk : Nat → Bool)
    (tables : List TableFile) :
    ((∀ t ∈ tables, t.finishOk = true ∧ uploadOk t.fileId = true) →
        (processCompletedTables uploadOk tables).2.2 = []) ∧
      (∀ pre t post, tables = pre ++ t :: post →
        (∀ x ∈ pre, x.finishOk = true ∧ uploadOk x.fileId = true) →
        t.finishOk = true → uploadOk t.fileId = false →
        (processCompletedTables uploadOk tables).2.2 =
          post.map fun x => x.tmpName) := by
  constructor
  · intro hall
    exact processGo_success_clean uploadOk tables [] [] hall
  · intro pre t post htab hpre hfin hup
    rw [htab]
    exact processGo_upload_fail uploadOk t post hfin hup pre [] [] hpre

/-- Witness for the amended C5: a fully successful run leaves nothing, and
a run whose second writer fails to upload leaves exactly the third writer's
file. -/
theorem cleanup_on_upload_path_wit :
    (processCompletedTables (fun _ => true) [⟨1, 2, 7, true⟩]).2.2 = [] ∧
      (processCompletedTables (fun _ => false)
          [⟨1, 2, 7, true⟩]).2.2 =
        ([] : List TableFile).map fun x => x.tmpName :=
  ⟨(cleanup_on_upload_path (fun _ => true) [⟨1, 2, 7, true⟩]).1 (by decide),
    (cleanup_on_upload_path (fun _ => false) [⟨1, 2, 7, true⟩]).2
      [] ⟨1, 2, 7, true⟩ [] rfl (by decide) (by decide) (by decide)⟩

/-- Accounting state of the body callback `uploadTempTableFile` passes to
the sink's `WriteTableFile` (src/unnamed/part_001 lines 436-455):
`localUploaded` counts the bytes read through the inner `countingReader`
since the last callback invocation, `buffered` is the total this callback
has added to `stats.bufferedSendBytes`, `deltas` the per-invocation
additions to it, and `readerOpens` how many times the callback has called
the `tmpTblFile.read.Reader()` factory. -/
structure BodyState where
  localUploaded : Nat
  buffered : Nat
  deltas : List Nat
  readerOpens : Nat
  deriving Repr, DecidableEq

/-- One invocation of the body callback: open a fresh reader; when
`localUploaded == 0`, add the index-and-footer bytes
`fileSize - chunksLen`; otherwise treat the bytes of the previous attempt
as re-buffered, adding `localUploaded` and resetting it to zero. -/
def bodyInvoke (fileSize chunksLen : Nat) (st : BodyState) : BodyState :=
  let d := if st.localUploaded = 0 then fileSize - chunksLen
    else st.localUploaded
  { localUploaded := 0, buffered := st.buffered + d,
    deltas := st.deltas ++ [d], readerOpens := st.readerOpens + 1 }

/-- One upload attempt: the sink invokes the body callback, then reads `r`
bytes through the counting reader before succeeding or failing. -/
def bodyAttempt (fileSize chunksLen : Nat) (st : BodyState) (r : Nat) :
    BodyState :=
  let st' := bodyInvoke fileSize chunksLen st
  { st' with localUploaded := st'.localUploaded + r }

/-- A sequence of upload attempts for one table file; `reads` lists the
bytes each attempt gets through before the sink succeeds or retries. -/
def runAttempts (fileSize chunksLen : Nat) (reads : List Nat) : BodyState :=
  reads.foldl (bodyAttempt fileSize chunksLen)
    { localUploaded := 0, buffered := 0, deltas := [], readerOpens := 0 }

/-- Claim C8 is refuted at this input: table file with final content length
10 and chunk-data length 6; the first attempt fails after reading 0 bytes.
The claim says the retry invocation adds exactly the bytes read during the
previous attempt — here 0 — but the code keys the branch on
`localUploaded == 0` and cannot tell such a retry from a first invocation,
so it adds the index+footer bytes `10 - 6 = 4` a second time. -/
theorem upload_retry_cex :
    (runAttempts 10 6 [0, 3]).deltas = [4, 4] ∧ (4 : Nat) ≠ 0 := by decide

/-- What the callback actually adds per invocation: the first invocation,
and any retry whose previous attempt read zero bytes, add the
index-and-footer bytes `fs - cl`; a retry whose previous attempt read
`r > 0` bytes adds exactly `r`. -/
def deltasSpec (fs cl : Nat) : Nat → List Nat → List Nat
  | _, [] => []
  | prev, r :: rest =>
    (if prev = 0 then fs - cl else prev) :: deltasSpec fs cl r rest

/-- Fold form of the attempt sequence against `deltasSpec`. -/
theorem runAttempts_fold (fs cl : Nat) (reads : List Nat) :
    ∀ st : BodyState,
      (reads.foldl (bodyAttempt fs cl) st).deltas =
          st.deltas ++ deltasSpec fs cl st.localUploaded reads ∧
        (reads.foldl (bodyAttempt fs cl) st).readerOpens =
          st.readerOpens + reads.length := by
  induction reads with
  | nil => intro st; simp [deltasSpec]
  | cons r rest ih =>
    intro st
    rw [List.foldl_cons]
    obtain ⟨h1, h2⟩ := ih (bodyAttempt fs cl st r)
    constructor
    · rw [h1]
      simp [bodyAttempt, bodyInvoke, deltasSpec]
    · rw [h2]
      simp [bodyAttempt, bodyInvoke]
      omega

/-- Claim C8 amended: each invocation of the upload body callback opens a
fresh reader (one `Reader()` factory call per invocation), and the additions
to `bufferedSendBytes` follow `deltasSpec`: the first invocation adds the
index+footer bytes `fileSize - chunksLen`; a retry after an attempt that
read `r > 0` bytes adds exactly `r`; a retry after a zero-byte attempt is
indistinguishable from a first invocation and re-adds the index+footer
bytes. -/
theorem upload_retry_accounting (fs cl : Nat) (reads : List Nat) :
    (runAttempts fs cl reads).deltas = deltasSpec fs cl 0 reads ∧
      (runAttempts fs cl reads).readerOpens = reads.length := by
  obtain ⟨h1, h2⟩ := runAttempts_fold fs cl reads
    { localUploaded := 0, buffered := 0, deltas := [], readerOpens := 0 }
  exact ⟨by simpa using h1, by simpa using h2⟩

/-- Store calls `NewPuller` can make before returning. -/
inductive StoreCall where
  | srcHasMany (hs : HashSet)
  | sinkHasMany (hs : HashSet)
  | srcGetManyCompressed (hs : HashSet)
  deriving Repr, DecidableEq

/-- Ways `NewPuller` fails: `notFound` models `errors.New("not found")`
(line 103), `dbUpToDate` the `ErrDBUpToDate` sentinel (line 112),
`versionMismatch` the formatted version error (line 116),
`incompatibleSource` the `ErrIncompatibleSourceChunkStore` sentinel (line
121), `writerInit` a `NewCmpChunkTableWriter` failure (line 127). -/
inductive NewPullerErr where
  | notFound
  | dbUpToDate
  | versionMismatch (srcV sinkV : Nat)
  | incompatibleSource
  | writerInit (msg : String)
  deriving Repr, DecidableEq

/-- What `NewPuller` consults: `HasMany` on each store is modelled as set
difference against its contents, `srcCompressed` is whether the source
implements `nbs.NBSCompressedChunkStore`, `wrInit` the outcome of
`NewCmpChunkTableWriter(tempDir)` (`some msg` on failure), `envPushLog` the
value of the `PUSH_LOG` environment variable when set, `openLogErr` whether
opening `<tempDir>/push.log` fails. -/
structure NewPullerEnv where
  srcHas : Addr → Bool
  sinkHas : Addr → Bool
  srcVersion : Nat
  sinkVersion : Nat
  srcCompressed : Bool
  wrInit : Option String
  envPushLog : Option String
  openLogErr : Bool

/-- The observable part of a constructed `Puller` these claims need: the
push logger, present or nil. -/
structure PullerModel where
  pushLog : Option Unit
  deriving Repr, DecidableEq

/-- `HasMany` of a store: the subset of the queried addresses the store
lacks. -/
def hasManyOf (has : Addr → Bool) (hs : HashSet) : HashSet :=
  hs.filter fun a => !has a

/-- Model of Go `strings.ToLower`: lower-case every character (written over
the character list so that it evaluates in the kernel). -/
def strToLower (s : String) : String :=
  ⟨s.data.map Char.toLower⟩

/-- Model of `NewPuller` (src/unnamed/part_001 lines 87-160): the startup
checks in source order, then writer creation, then the `PUSH_LOG` handling
(lines 130-138: the logger is built only if the variable lower-cases to
"true" and the log file opens; an open failure is ignored).  Returns the
result together with the store calls made. -/
def newPuller (env : NewPullerEnv) (hashes : HashSet) :
    Except NewPullerErr PullerModel × List StoreCall :=
  if (hasManyOf env.srcHas hashes).length ≠ 0 then
    (.error .notFound, [.srcHasMany hashes])
  else if (hasManyOf env.sinkHas hashes).length = 0 then
    (.error .dbUpToDate, [.srcHasMany hashes, .sinkHasMany hashes])
  else if env.srcVersion ≠ env.sinkVersion then
    (.error (.versionMismatch env.srcVersion env.sinkVersion),
      [.srcHasMany hashes, .sinkHasMany hashes])
  else if env.srcCompressed = false then
    (.error .incompatibleSource, [.srcHasMany hashes, .sinkHasMany hashes])
  else
    match env.wrInit with
    | some msg =>
      (.error (.writerInit msg), [.srcHasMany hashes, .sinkHasMany hashes])
    | none =>
      let pushLogger : Option Unit :=
        match env.envPushLog with
        | some dbg =>
          if strToLower dbg = "true" then
            if env.openLogErr then none else some ()
          else none
        | none => none
      (.ok { pushLog := pushLogger },
        [.srcHasMany hashes, .sinkHasMany hashes])

/-- Model of `Logf` (src/unnamed/part_001 lines 162-166): the messages
written — nothing when the push logger is nil. -/
def logf (pushLog : Option Unit) (msg : String) : List String :=
  match pushLog with
  | some _ => [msg]
  | none => []

/-- The startup-check order exactly as the specification words it
(spec §4.7.2): source roots first, then sink up-to-date, then version
equality, then the compressed-chunk interface. -/
def startupChecksSpec (env : NewPullerEnv) (hashes : HashSet) :
    Option NewPullerErr :=
  if (hasManyOf env.srcHas hashes).length ≠ 0 then some .notFound
  else if (hasManyOf env.sinkHas hashes).length = 0 then some .dbUpToDate
  else if env.srcVersion ≠ env.sinkVersion then
    some (.versionMismatch env.srcVersion env.sinkVersion)
  else if env.srcCompressed = false then some .incompatibleSource
  else none

/-- Whether a call trace contains a chunk fetch. -/
def callsFetch (l : List StoreCall) : Bool :=
  l.any fun c =>
    match c with
    | .srcGetManyCompressed _ => true
    | _ => false

/-- Claim C3: `NewPuller` performs its startup checks in exactly the
claimed order — missing source roots fail first, then an up-to-date sink,
then a version mismatch, then a source without the compressed-chunk
interface — and it makes no `GetManyCompressed` call, so every check runs
before any chunk is fetched. -/
theorem newPuller_check_order (env : NewPullerEnv) (hashes : HashSet) :
    callsFetch (newPuller env hashes).2 = false ∧
      (∀ e, startupChecksSpec env hashes = some e →
        (newPuller env hashes).1 = .error e) := by
  constructor
  · unfold newPuller
    split
    · rfl
    · split
      · rfl
      · split
        · rfl
        · split
          · rfl
          · cases henv : env.wrInit with
            | some msg => rfl
            | none => rfl
  · intro e he
    unfold startupChecksSpec at he
    unfold newPuller
    by_cases h1 : (hasManyOf env.srcHas hashes).length ≠ 0
    · rw [if_pos h1] at he
      cases he
      rw [if_pos h1]
    · rw [if_neg h1] at he
      rw [if_neg h1]
      by_cases h2 : (hasManyOf env.sinkHas hashes).length = 0
      · rw [if_pos h2] at he
        cases he
        rw [if_pos h2]
      · rw [if_neg h2] at he
        rw [if_neg h2]
        by_cases h3 : env.srcVersion ≠ env.sinkVersion
        · rw [if_pos h3] at he
          cases he
          rw [if_pos h3]
        · rw [if_neg h3] at he
          rw [if_neg h3]
          by_cases h4 : env.srcCompressed = false
          · rw [if_pos h4] at he
            cases he
            rw [if_pos h4]
          · rw [if_neg h4] at he
            cases he

/-- Witness environment for C3: the source lacks every address, so the
first check fires. -/
def envMissingRoot : NewPullerEnv :=
  { srcHas := fun _ => false, sinkHas := fun _ => false,
    srcVersion := 5, sinkVersion := 5, srcCompressed := true,
    wrInit := none, envPushLog := none, openLogErr := false }

/-- Witness for C3: with root `0` missing at the source, `NewPuller` fails
with the not-found error. -/
theorem newPuller_check_order_wit :
    (newPuller envMissingRoot [0]).1 = .error .notFound :=
  (newPuller_check_order envMissingRoot [0]).2 .notFound (by decide)

/-- Claim C10: when `PUSH_LOG` is set to a string that lower-cases to
"true" but opening `<tempDir>/push.log` fails — with the startup checks and
the writer creation succeeding — `NewPuller` still returns a puller and no
error: the open failure is swallowed, the logger stays nil, and `Logf`
writes nothing ever after. -/
theorem pushlog_open_failure_swallowed (env : NewPullerEnv)
    (hashes : HashSet) (s : String) (henv : env.envPushLog = some s)
    (hs : strToLower s = "true") (hopen : env.openLogErr = true)
    (hchecks : startupChecksSpec env hashes = none)
    (hwr : env.wrInit = none) :
    (newPuller env hashes).1 = .ok { pushLog := none } ∧
      ∀ msg, logf none msg = [] := by
  have h1 : ¬ (hasManyOf env.srcHas hashes).length ≠ 0 := by
    intro h
    simp [startupChecksSpec, h] at hchecks
  have h2 : ¬ (hasManyOf env.sinkHas hashes).length = 0 := by
    intro h
    simp [startupChecksSpec, h1, h] at hchecks
  have h3 : ¬ env.srcVersion ≠ env.sinkVersion := by
    intro h
    simp [startupChecksSpec, h1, h2, h] at hchecks
  have h4 : ¬ env.srcCompressed = false := by
    intro h
    simp [startupChecksSpec, h1, h2, h3, h] at hchecks
  refine ⟨?_, fun msg => rfl⟩
  unfold newPuller
  rw [if_neg h1, if_neg h2, if_neg h3, if_neg h4, hwr, henv]
  simp [hs, hopen]

/-- Witness environment for C10: all startup checks pass (source has every
address, sink has none, equal versions, compressed interface), the writer
opens, `PUSH_LOG=TRUE`, and the log-file open fails. -/
def envLogOpenFails : NewPullerEnv :=
  { srcHas := fun _ => true, sinkHas := fun _ => false,
    srcVersion := 5, sinkVersion := 5, srcCompressed := true,
    wrInit := none, envPushLog := some "TRUE", openLogErr := true }

/-- Witness for C10 at `PUSH_LOG=TRUE`: the constructor succeeds with a nil
logger and `Logf` writes nothing. -/
theorem pushlog_open_failure_swallowed_wit :
    (newPuller envLogOpenFails [0]).1 = .ok { pushLog := none } ∧
      ∀ msg, logf none msg = [] :=
  pushlog_open_failure_swallowed envLogOpenFails [0] "TRUE" rfl (by decide)
    rfl (by decide) rfl

end PullRepo
